import Mathlib

/-!
Shallow embedding of the reposelect relevance-ranking and budget-constrained
selection pipeline (src/reposelect.ts, src/lib/config.ts, src/lib/scorer.ts,
src/lib/selector.ts, src/agent/factory-agent.ts, src/agent/opencode-agent.ts).

JavaScript numbers are modelled by `ℚ` (scores, confidences) or `ℝ` (the
recency formula, which uses a base-10 logarithm); byte counts, token counts
and budgets are `Nat`.  Strings are modelled by `String` or, where
character-level matching matters, by `List Char`.
-/

namespace RepoSelect

/-- Source: `MIN_SELECTED_FILES = 8` in src/lib/config.ts and the literal `8`
in the selection loop of src/reposelect.ts. -/
def MIN_SELECTED_FILES : Nat := 8

/-- Source: `DEFAULT_BUDGET = 12000` in src/lib/config.ts. -/
def DEFAULT_BUDGET : Nat := 12000

/-- Source: `TOKENS_PER_CHAR = 3.7` in src/lib/config.ts. -/
def TOKENS_PER_CHAR : ℚ := 37 / 10

/-- Source: `ScoredFile` in src/lib/scorer.ts and the anonymous ranked records
`{ file, score, size, tokens }` built in `main` of src/reposelect.ts. -/
structure ScoredFile where
  file : String
  score : ℚ
  size : Nat
  tokens : Nat
deriving DecidableEq

/-- Source: `tokenEstimate(chars) = Math.ceil(chars / 3.7)` in
src/reposelect.ts and `FileScorer.tokenEstimate` in src/lib/scorer.ts. -/
def tokenEstimate (chars : Nat) : Nat :=
  (Int.ceil ((chars : ℚ) / TOKENS_PER_CHAR)).toNat

/-- Source: the selection loop in `main` of src/reposelect.ts:
```
for (const { file, tokens } of ranked) {
  if (usedTokens + tokens > args.budget && selected.length >= 8) break;
  selected.push(file);
  usedTokens += tokens;
}
```
State is the accumulated `selected` list and the running `usedTokens` total. -/
def selectGo (budget : Nat) : List ScoredFile → List String → Nat → List String × Nat
  | [], selected, used => (selected, used)
  | c :: rest, selected, used =>
    if budget < used + c.tokens ∧ MIN_SELECTED_FILES ≤ selected.length then
      (selected, used)
    else
      selectGo budget rest (selected ++ [c.file]) (used + c.tokens)

/-- The budget selector run from the initial empty state. -/
def select (budget : Nat) (ranked : List ScoredFile) : List String × Nat :=
  selectGo budget ranked [] 0

/-- Source: the tail of `main` in src/reposelect.ts: an empty selection calls
`process.exit(2)`, otherwise the selected files are handed to Repomix. -/
inductive PipelineExit where
  | packed (files : List String) (usedTokens : Nat)
  | exitNoRelevantFiles (code : Nat)
deriving DecidableEq

/-- Source: `main` of src/reposelect.ts after ranking: run the budget
selector, exit with code 2 on an empty selection, else pack. -/
def runDeterministicSelection (budget : Nat) (ranked : List ScoredFile) : PipelineExit :=
  let res := select budget ranked
  if res.1.isEmpty then PipelineExit.exitNoRelevantFiles 2
  else PipelineExit.packed res.1 res.2

/-- Outcome of the agent-delegation step in `main`: either the agent's
validated selection is packed, or control falls back to the deterministic
pipeline. -/
inductive SelectionOutcome where
  | agentPacked (files : List String)
  | deterministicFallback
deriving DecidableEq

/-- Source: `tryAgentSelection` in src/reposelect.ts:
```
const validFiles = result.files.filter(file => fs.existsSync(path.join(repo, file)));
if (validFiles.length === 0) { ... return false; }
```
`onDisk` abstracts `fs.existsSync(path.join(repo, ·))`. -/
def validateAgentFiles (onDisk : String → Bool) (files : List String) : Option (List String) :=
  let valid := files.filter onDisk
  if valid.isEmpty then none else some valid

/-- Source: the control flow of `tryAgentSelection`/`main` in
src/reposelect.ts: `none` models an agent failure (exception or unsupported
agent), in which case `tryAgentSelection` returns false and `main` continues
with the deterministic pipeline; a validated non-empty list is packed. -/
def agentControllerStep (onDisk : String → Bool) (agentResult : Option (List String)) :
    SelectionOutcome :=
  match agentResult with
  | none => SelectionOutcome.deterministicFallback
  | some files =>
    match validateAgentFiles onDisk files with
    | none => SelectionOutcome.deterministicFallback
    | some valid => SelectionOutcome.agentPacked valid

/-- Source: JavaScript truthiness as used by `||` in the agents'
`parseResponse`; a JSON field is `undefined` when absent, and `0`, `""`,
`null`, `false` are the falsy values relevant here. -/
inductive JsValue where
  | undef
  | nullv
  | num (q : ℚ)
  | str (s : String)
  | boolv (b : Bool)
deriving DecidableEq

/-- JavaScript falsiness for the modelled values. -/
def falsy : JsValue → Bool
  | JsValue.undef => true
  | JsValue.nullv => true
  | JsValue.num q => q == 0
  | JsValue.str s => s == ""
  | JsValue.boolv b => !b

/-- JavaScript `a || b`. -/
def jsOr (a b : JsValue) : JsValue := if falsy a then b else a

/-- Source: `AgentResult` in src/agent/base-agent.ts, with the `reasoning`
and `confidence` fields kept as raw JavaScript values. -/
structure AgentResult where
  files : List String
  reasoning : JsValue
  confidence : JsValue
deriving DecidableEq

/-- Source: the tail of `parseResponse` in both src/agent/factory-agent.ts
and src/agent/opencode-agent.ts:
```
return {
  files: parsed.files,
  reasoning: parsed.reasoning || 'No reasoning provided',
  confidence: parsed.confidence || 0.5
};
``` -/
def parseResponseFields (files : List String) (reasoningField confidenceField : JsValue) :
    AgentResult :=
  { files := files
    reasoning := jsOr reasoningField (JsValue.str "No reasoning provided")
    confidence := jsOr confidenceField (JsValue.num (1/2)) }

/-- Source: the character class `[a-z0-9_]` of the keyword-extraction regex
in src/reposelect.ts / `KeywordExtractor.extract`. -/
def isKeywordChar (c : Char) : Bool :=
  (decide ('a' ≤ c) && decide (c ≤ 'z')) ||
  (decide ('0' ≤ c) && decide (c ≤ '9')) ||
  c == '_'

/-- Source: `COMMON_STOPWORDS` in src/lib/config.ts (identical to the inline
list in src/reposelect.ts). -/
def COMMON_STOPWORDS : List String :=
  ["the", "and", "for", "are", "with", "not", "you", "all", "can", "has",
   "her", "was", "one", "our", "out", "day", "get", "had", "his", "how",
   "man", "new", "now", "old", "see", "two", "way", "who", "boy", "did",
   "its", "let", "put", "say", "she", "too", "use"]

/-- Splits a character list into the maximal runs of keyword characters, the
semantics of `match(/[a-z0-9_]{3,}/g)` before the length cut; `acc` is the
current run, reversed. -/
def splitRuns : List Char → List Char → List (List Char)
  | [], acc => if acc.isEmpty then [] else [acc.reverse]
  | c :: cs, acc =>
    if isKeywordChar c then splitRuns cs (c :: acc)
    else if acc.isEmpty then splitRuns cs [] else acc.reverse :: splitRuns cs []

/-- One insertion step of `new Set(...)`: keep the first occurrence. -/
def insertUnique (acc : List (List Char)) (x : List Char) : List (List Char) :=
  if x ∈ acc then acc else acc ++ [x]

/-- `Array.from(new Set(l))`: deduplicate keeping first-seen order. -/
def dedupFirst (l : List (List Char)) : List (List Char) :=
  l.foldl insertUnique []

/-- Source: keyword extraction in src/reposelect.ts /
`KeywordExtractor.extract` in src/lib/keywords.ts: lowercase, take maximal
`[a-z0-9_]` runs of length ≥ 3, drop stopwords, deduplicate. -/
def extract (question : String) : List (List Char) :=
  dedupFirst ((splitRuns (question.data.map Char.toLower) []).filter
    (fun r => decide (3 ≤ r.length) && !(decide (String.mk r ∈ COMMON_STOPWORDS))))

/-- Source: the character class of `k.replace(/[.*+?^$\x7b\x7d()|[\]\\]/g, '\\$&')`
in `byName` (src/reposelect.ts) / `FileSelector.byName`. -/
def REGEX_METACHARS : List Char :=
  ['.', '*', '+', '?', '^', '$', '\x7b', '\x7d', '(', ')', '|', '[', ']', '\\']

/-- Source: the `replace` call above — every metacharacter is preceded by a
backslash, every other character is kept as is. -/
def escapeRegex : List Char → List Char
  | [] => []
  | c :: rest => (if c ∈ REGEX_METACHARS then ['\\', c] else [c]) ++ escapeRegex rest

/-- Reads a regular-expression pattern consisting only of literal characters
and backslash-escaped characters back into the literal character sequence it
matches; `none` on a dangling backslash.  This is the semantics of
`new RegExp(pattern)` restricted to the patterns `byName` actually builds. -/
def parsePattern : List Char → Option (List Char)
  | [] => some []
  | c :: rest =>
    if c = '\\' then
      match rest with
      | [] => none
      | d :: rest2 => (parsePattern rest2).map (fun l => d :: l)
    else (parsePattern rest).map (fun l => c :: l)

/-- Whether `needle` occurs at the head of `hay`. -/
def startsWithList : List Char → List Char → Bool
  | [], _ => true
  | _ :: _, [] => false
  | a :: as, b :: bs => a == b && startsWithList as bs

/-- Whether `needle` occurs contiguously anywhere in `hay`. -/
def containsSub (needle : List Char) : List Char → Bool
  | [] => needle.isEmpty
  | c :: t => startsWithList needle (c :: t) || containsSub needle t

/-- Case-insensitive substring containment, the semantics of
`path.toLowerCase().includes(keyword)` with both sides case-folded. -/
def substringCI (needle hay : List Char) : Bool :=
  containsSub (needle.map Char.toLower) (hay.map Char.toLower)

/-- Semantics of `new RegExp(pattern, 'i').test(subj)` for the literal-only
patterns built by `byName`: parse the escaped pattern back to its literal
characters, then match case-insensitively as a substring. -/
def regexTestCI (pattern subj : List Char) : Bool :=
  match parsePattern pattern with
  | none => false
  | some lits => containsSub (lits.map Char.toLower) (subj.map Char.toLower)

/-- Source: `byName` in src/reposelect.ts / `FileSelector.byName`: a file is
kept when some keyword's escaped regex matches it case-insensitively.  The
source collects matches into a `Set`; the insertion order (input order) is
kept here so the result also denotes that set. -/
def byName (files : List (List Char)) (keywords : List (List Char)) : List (List Char) :=
  files.filter (fun f => keywords.any (fun k => regexTestCI (escapeRegex k) f))

/-- The specified alternative reading of the filename match (spec §4.2):
a file is kept when some keyword is a case-insensitive substring of it. -/
def byNameSubstring (files : List (List Char)) (keywords : List (List Char)) :
    List (List Char) :=
  files.filter (fun f => keywords.any (fun k => substringCI k f))

/-- Descending-score comparison used by the ranking sort: `a` may come before
`b` exactly when the comparator `(a, b) => b.score - a.score` is ≤ 0. -/
def scoreGE (a b : ScoredFile) : Prop := b.score ≤ a.score

instance : DecidableRel scoreGE :=
  fun a b => inferInstanceAs (Decidable (b.score ≤ a.score))

instance : IsTotal ScoredFile scoreGE :=
  ⟨fun a b => le_total b.score a.score⟩

instance : IsTrans ScoredFile scoreGE :=
  ⟨fun _ _ _ hab hbc => le_trans hbc hab⟩

/-- Source: `FileScorer.scoreMany` in src/lib/scorer.ts:
`files.map(file => this.score(file)).sort((a, b) => b.score - a.score)`.
ECMAScript `Array.prototype.sort` is a stable sort, and any stable sort with
this comparator produces the same list, so it is modelled by a stable
insertion sort; the per-file scoring is abstracted as the function
argument. -/
def scoreMany (score : String → ScoredFile) (files : List String) : List ScoredFile :=
  List.insertionSort scoreGE (files.map score)

/-- Source: `lastCommitScore` in src/reposelect.ts / `FileScorer.recencyScore`
in src/lib/scorer.ts, the pure formula
`Math.max(0, Math.min(1, 1 - Math.log10(1 + ageDays) / 2))`. -/
noncomputable def recencyScoreOfAge (ageDays : ℝ) : ℝ :=
  max 0 (min 1 (1 - Real.logb 10 (1 + ageDays) / 2))

/-- Source: `lastCommitScore` / `FileScorer.recencyScore` with the timestamp
handling: a falsy (0/unknown) timestamp returns 0, otherwise
`ageDays = (now - timestamp) / 86400` where both are in seconds. -/
noncomputable def recencyScore (nowSec timestamp : ℝ) : ℝ :=
  if timestamp = 0 then 0 else recencyScoreOfAge ((nowSec - timestamp) / 86400)

/-! ### Helper lemmas about the budget selector -/

/-- The selector only ever appends to the already-selected list: its result is
the accumulator followed by the files of some initial segment of the
remaining candidates. -/
lemma selectGo_eq_append (budget : Nat) :
    ∀ (rest : List ScoredFile) (selected : List String) (used : Nat),
      ∃ n, (selectGo budget rest selected used).1
            = selected ++ (rest.map (fun c => c.file)).take n := by
  intro rest
  induction rest with
  | nil =>
    intro selected used
    exact ⟨0, by simp [selectGo]⟩
  | cons c rest ih =>
    intro selected used
    simp only [selectGo]
    split_ifs with h
    · exact ⟨0, by simp⟩
    · obtain ⟨n, hn⟩ := ih (selected ++ [c.file]) (used + c.tokens)
      exact ⟨n + 1, by simpa [List.take_succ_cons] using hn⟩

/-- Below the floor every candidate is admitted, so the result length is at
least the floor or the whole pool, whichever is smaller. -/
lemma selectGo_length_lower (budget : Nat) :
    ∀ (rest : List ScoredFile) (selected : List String) (used : Nat),
      min MIN_SELECTED_FILES (selected.length + rest.length)
        ≤ (selectGo budget rest selected used).1.length := by
  intro rest
  induction rest with
  | nil =>
    intro selected used
    simp only [selectGo, List.length_nil]
    omega
  | cons c rest ih =>
    intro selected used
    simp only [selectGo, List.length_cons]
    split_ifs with h
    · have h2 := h.2
      dsimp only
      omega
    · have := ih (selected ++ [c.file]) (used + c.tokens)
      simp only [List.length_append, List.length_singleton] at this
      omega

/-- With a zero budget and strictly positive token estimates, the selector
never grows past `max` of the accumulator length and the floor. -/
lemma selectGo_budget_zero_upper :
    ∀ (rest : List ScoredFile), (∀ c ∈ rest, 0 < c.tokens) →
      ∀ (selected : List String) (used : Nat),
        (selectGo 0 rest selected used).1.length
          ≤ max selected.length MIN_SELECTED_FILES := by
  intro rest
  induction rest with
  | nil =>
    intro _ selected used
    simp only [selectGo]
    omega
  | cons c rest ih =>
    intro hpos selected used
    have htok : 0 < c.tokens := hpos c (List.mem_cons_self c rest)
    simp only [selectGo]
    split_ifs with h
    · dsimp only
      omega
    · have hlen : selected.length < MIN_SELECTED_FILES := by
        by_contra hge
        exact h ⟨by omega, by omega⟩
      have := ih (fun c' hc' => hpos c' (List.mem_cons_of_mem c hc'))
        (selected ++ [c.file]) (used + c.tokens)
      simp only [List.length_append, List.length_singleton] at this
      omega

/-- A non-empty pool yields a non-empty selection: the first candidate is
always admitted because the floor check `8 ≤ 0` fails. -/
lemma select_ne_nil (budget : Nat) (c : ScoredFile) (rest : List ScoredFile) :
    (select budget (c :: rest)).1 ≠ [] := by
  show (selectGo budget (c :: rest) [] 0).1 ≠ []
  simp only [selectGo]
  rw [if_neg (fun hc => absurd hc.2 (by decide))]
  simp only [List.nil_append]
  obtain ⟨n, hn⟩ := selectGo_eq_append budget rest [c.file] (0 + c.tokens)
  rw [hn]
  simp

/-! ### Claim theorems -/

/-- C1: the budget selector iterates candidates in order; while fewer than
`MIN_SELECTED_FILES = 8` files are admitted, the next candidate is admitted
unconditionally; once the floor is met, the next candidate is admitted
exactly when adding its token estimate keeps the running total within the
budget; and at the first candidate past the floor whose token estimate would
push the total over the budget, iteration stops entirely — the remaining
candidates `rest` do not appear in the result. -/
theorem select_floor_budget_step (budget : Nat) (c : ScoredFile)
    (rest : List ScoredFile) (selected : List String) (used : Nat) :
    (selected.length < MIN_SELECTED_FILES →
        selectGo budget (c :: rest) selected used
          = selectGo budget rest (selected ++ [c.file]) (used + c.tokens))
    ∧ (MIN_SELECTED_FILES ≤ selected.length → used + c.tokens ≤ budget →
        selectGo budget (c :: rest) selected used
          = selectGo budget rest (selected ++ [c.file]) (used + c.tokens))
    ∧ (MIN_SELECTED_FILES ≤ selected.length → budget < used + c.tokens →
        selectGo budget (c :: rest) selected used = (selected, used)) := by
  refine ⟨?_, ?_, ?_⟩
  · intro h
    simp only [selectGo]
    rw [if_neg (fun hc => absurd hc.2 (not_le.mpr h))]
  · intro _ hle
    simp only [selectGo]
    rw [if_neg (fun hc => absurd hc.1 (not_lt.mpr hle))]
  · intro hfloor hover
    simp only [selectGo]
    rw [if_pos ⟨hover, hfloor⟩]

/-- Witness for C1: all three branches of the step characterization at
concrete inputs. -/
theorem select_floor_budget_step_witness :
    (selectGo 10 [⟨"a", 0, 11, 3⟩] [] 0 = selectGo 10 [] ["a"] 3)
    ∧ (selectGo 10 [⟨"b", 0, 11, 3⟩]
          ["f1", "f2", "f3", "f4", "f5", "f6", "f7", "f8"] 5
        = selectGo 10 []
            (["f1", "f2", "f3", "f4", "f5", "f6", "f7", "f8"] ++ ["b"]) 8)
    ∧ (selectGo 10 [⟨"c", 0, 34, 9⟩]
          ["f1", "f2", "f3", "f4", "f5", "f6", "f7", "f8"] 5
        = (["f1", "f2", "f3", "f4", "f5", "f6", "f7", "f8"], 5)) :=
  ⟨(select_floor_budget_step 10 ⟨"a", 0, 11, 3⟩ [] [] 0).1 (by decide),
   (select_floor_budget_step 10 ⟨"b", 0, 11, 3⟩ []
      ["f1", "f2", "f3", "f4", "f5", "f6", "f7", "f8"] 5).2.1 (by decide) (by decide),
   (select_floor_budget_step 10 ⟨"c", 0, 34, 9⟩ []
      ["f1", "f2", "f3", "f4", "f5", "f6", "f7", "f8"] 5).2.2 (by decide) (by decide)⟩

/-- C2, counterexample: with budget 0 and nine zero-byte candidates (token
estimate 0 each), the selector admits all nine files, exceeding the floor of
8 — `usedTokens + 0 > 0` never holds, so the stop condition never fires. -/
theorem select_budget_zero_counterexample :
    ¬ ((select 0
          [⟨"f1", 0, 0, 0⟩, ⟨"f2", 0, 0, 0⟩, ⟨"f3", 0, 0, 0⟩,
           ⟨"f4", 0, 0, 0⟩, ⟨"f5", 0, 0, 0⟩, ⟨"f6", 0, 0, 0⟩,
           ⟨"f7", 0, 0, 0⟩, ⟨"f8", 0, 0, 0⟩, ⟨"f9", 0, 0, 0⟩]).1.length
        ≤ MIN_SELECTED_FILES) := by decide

/-- C2, amended: the selector always returns at least
`min MIN_SELECTED_FILES poolSize` files, and for budget 0 it returns at most
`MIN_SELECTED_FILES` files provided every candidate has a strictly positive
token estimate. -/
theorem select_min_floor (budget : Nat) (ranked : List ScoredFile) :
    min MIN_SELECTED_FILES ranked.length ≤ (select budget ranked).1.length
    ∧ ((∀ c ∈ ranked, 0 < c.tokens) →
        (select 0 ranked).1.length ≤ MIN_SELECTED_FILES) := by
  constructor
  · have := selectGo_length_lower budget ranked [] 0
    simpa [select] using this
  · intro hpos
    have := selectGo_budget_zero_upper ranked hpos [] 0
    simpa [select] using this

/-- Witness for C2's amended theorem at a concrete one-candidate pool with a
positive token estimate. -/
theorem select_min_floor_witness :
    min MIN_SELECTED_FILES ([⟨"a", 0, 4, 2⟩] : List ScoredFile).length
        ≤ (select 7 [⟨"a", 0, 4, 2⟩]).1.length
    ∧ (select 0 [(⟨"a", 0, 4, 2⟩ : ScoredFile)]).1.length ≤ MIN_SELECTED_FILES :=
  ⟨(select_min_floor 7 [⟨"a", 0, 4, 2⟩]).1,
   (select_min_floor 0 [⟨"a", 0, 4, 2⟩]).2 (by decide)⟩

/-- C9: the selected sequence is the file list of an initial segment of the
ranked candidate list — the selector never reorders candidates and never
skips a candidate that precedes an admitted one. -/
theorem select_initial_segment (budget : Nat) (ranked : List ScoredFile) :
    ∃ n, (select budget ranked).1 = (ranked.map (fun c => c.file)).take n := by
  obtain ⟨n, hn⟩ := selectGo_eq_append budget ranked [] 0
  exact ⟨n, by simpa [select] using hn⟩

/-- C7: the deterministic pipeline ends in the distinct exit signal
(exit code 2) exactly when the candidate pool is empty, and a packed result
always carries a non-empty file list. -/
theorem empty_pool_exit (budget : Nat) (ranked : List ScoredFile) :
    (runDeterministicSelection budget ranked = PipelineExit.exitNoRelevantFiles 2
      ↔ ranked = [])
    ∧ (∀ files used,
        runDeterministicSelection budget ranked = PipelineExit.packed files used →
          files ≠ []) := by
  constructor
  · constructor
    · intro h
      cases ranked with
      | nil => rfl
      | cons c rest =>
        have hne := select_ne_nil budget c rest
        rw [runDeterministicSelection] at h
        simp only [List.isEmpty_iff] at h
        rw [if_neg hne] at h
        exact absurd h (by simp)
    · rintro rfl
      simp [runDeterministicSelection, select, selectGo]
  · intro files used h
    rw [runDeterministicSelection] at h
    simp only [List.isEmpty_iff] at h
    split_ifs at h with hsel
    cases h
    exact hsel

/-- Witness for C7 at the empty pool. -/
theorem empty_pool_exit_witness :
    runDeterministicSelection 5 [] = PipelineExit.exitNoRelevantFiles 2 :=
  (empty_pool_exit 5 []).1.mpr rfl

/-- C4: the token estimate is `ceil(sizeBytes / 3.7)` for every non-negative
integer byte count, and in particular `tokenEstimate 3700 = 1000` and
`tokenEstimate 100 = 28`. -/
theorem tokenEstimate_spec :
    (∀ chars : Nat, (tokenEstimate chars : ℤ) = Int.ceil ((chars : ℚ) / (37 / 10)))
    ∧ tokenEstimate 3700 = 1000 ∧ tokenEstimate 100 = 28 := by
  refine ⟨?_, ?_, ?_⟩
  · intro chars
    have h0 : (0 : ℚ) ≤ (chars : ℚ) / (37 / 10) := by positivity
    simp only [tokenEstimate, TOKENS_PER_CHAR]
    exact Int.toNat_of_nonneg (Int.ceil_nonneg h0)
  · show (Int.ceil (((3700 : Nat) : ℚ) / TOKENS_PER_CHAR)).toNat = 1000
    rw [show (((3700 : Nat) : ℚ) / TOKENS_PER_CHAR) = 1000 by
      norm_num [TOKENS_PER_CHAR]]
    simp
  · show (Int.ceil (((100 : Nat) : ℚ) / TOKENS_PER_CHAR)).toNat = 28
    rw [show (((100 : Nat) : ℚ) / TOKENS_PER_CHAR) = 1000 / 37 by
      norm_num [TOKENS_PER_CHAR]]
    rw [show Int.ceil ((1000 : ℚ) / 37) = 28 by
      rw [Int.ceil_eq_iff]
      norm_num]
    rfl

/-- C6: the agent controller silently drops every returned path that does not
exist on disk; a validated success packs exactly the surviving paths (all of
which exist) in order; if dropping empties the list the outcome is a failure
and control falls back to the deterministic pipeline, as it does when the
agent itself fails; and only a non-empty filtered list is ever packed. -/
theorem agent_invalid_paths_dropped (onDisk : String → Bool) (files : List String) :
    (files.filter onDisk ≠ [] →
        agentControllerStep onDisk (some files)
          = SelectionOutcome.agentPacked (files.filter onDisk))
    ∧ (files.filter onDisk = [] →
        agentControllerStep onDisk (some files)
          = SelectionOutcome.deterministicFallback)
    ∧ agentControllerStep onDisk none = SelectionOutcome.deterministicFallback
    ∧ (∀ v, agentControllerStep onDisk (some files) = SelectionOutcome.agentPacked v →
        v ≠ [] ∧ ∀ f ∈ v, onDisk f = true) := by
  refine ⟨?_, ?_, rfl, ?_⟩
  · intro h
    simp [agentControllerStep, validateAgentFiles, List.isEmpty_iff, h]
  · intro h
    simp [agentControllerStep, validateAgentFiles, h]
  · intro v hv
    by_cases hemp : files.filter onDisk = []
    · simp [agentControllerStep, validateAgentFiles, hemp] at hv
    · simp only [agentControllerStep, validateAgentFiles, List.isEmpty_iff,
        if_neg hemp] at hv
      rw [SelectionOutcome.agentPacked.injEq] at hv
      refine ⟨by rw [← hv]; exact hemp, ?_⟩
      intro f hf
      rw [← hv] at hf
      exact List.of_mem_filter hf

/-- Witness for C6: an agent outcome listing one real and one nonexistent
file is packed with only the real file. -/
theorem agent_invalid_paths_dropped_witness :
    agentControllerStep (fun f => f == "a.ts") (some ["a.ts", "ghost.ts"])
      = SelectionOutcome.agentPacked ["a.ts"] :=
  (agent_invalid_paths_dropped (fun f => f == "a.ts") ["a.ts", "ghost.ts"]).1
    (by decide)

/-- C10: the agents' `parseResponse` replaces a missing (`undefined`) or
exactly-zero confidence with 0.5 and a missing reasoning with the fixed
string, so the parsed result never carries confidence 0. -/
theorem parse_confidence_defaults (files : List String) (r c : JsValue) :
    ((c = JsValue.undef ∨ c = JsValue.num 0) →
        (parseResponseFields files r c).confidence = JsValue.num (1 / 2))
    ∧ (r = JsValue.undef →
        (parseResponseFields files r c).reasoning
          = JsValue.str "No reasoning provided")
    ∧ (parseResponseFields files r c).confidence ≠ JsValue.num 0 := by
  refine ⟨?_, ?_, ?_⟩
  · rintro (rfl | rfl) <;> simp [parseResponseFields, jsOr, falsy]
  · rintro rfl
    simp [parseResponseFields, jsOr, falsy]
  · cases c with
    | num q =>
      by_cases hq : q = 0
      · subst hq
        simp [parseResponseFields, jsOr, falsy]
      · simp [parseResponseFields, jsOr, falsy, hq]
    | undef =>
      simp [parseResponseFields, jsOr, falsy]
    | nullv =>
      simp [parseResponseFields, jsOr, falsy]
    | str s =>
      by_cases hs : s = ""
      · subst hs
        simp [parseResponseFields, jsOr, falsy]
      · simp [parseResponseFields, jsOr, falsy, hs]
    | boolv b =>
      cases b <;> simp [parseResponseFields, jsOr, falsy]

/-- Witness for C10 at a concrete zero confidence and missing reasoning. -/
theorem parse_confidence_defaults_witness :
    (parseResponseFields ["a.ts"] JsValue.undef (JsValue.num 0)).confidence
        = JsValue.num (1 / 2)
    ∧ (parseResponseFields ["a.ts"] JsValue.undef (JsValue.num 0)).reasoning
        = JsValue.str "No reasoning provided" :=
  ⟨(parse_confidence_defaults ["a.ts"] JsValue.undef (JsValue.num 0)).1
      (Or.inr rfl),
   (parse_confidence_defaults ["a.ts"] JsValue.undef (JsValue.num 0)).2.1 rfl⟩

/-- C8: `scoreMany` returns the scored files sorted by descending composite
score, and it is a stable sort — for every score value, the files carrying
that score appear in exactly the order the input arrived in.  Determinism on
identical inputs is immediate since the embedding is a pure function of the
scoring function and the file list. -/
theorem scoreMany_sorted_stable (score : String → ScoredFile) (files : List String) :
    List.Sorted scoreGE (scoreMany score files)
    ∧ ∀ s : ℚ,
        (scoreMany score files).filter (fun f => decide (f.score = s))
          = (files.map score).filter (fun f => decide (f.score = s)) := by
  constructor
  · exact List.sorted_insertionSort scoreGE (files.map score)
  · intro s
    set l := files.map score with hl
    set p : ScoredFile → Bool := fun f => decide (f.score = s) with hp
    have hmem : ∀ a ∈ l.filter p, a.score = s := by
      intro a ha
      have := List.of_mem_filter ha
      simpa [hp] using this
    have hpair : (l.filter p).Pairwise scoreGE := by
      apply List.pairwise_of_forall_mem_list
      intro a ha b hb
      show b.score ≤ a.score
      rw [hmem a ha, hmem b hb]
    have hsub2 : List.Sublist (l.filter p) (List.insertionSort scoreGE l) :=
      List.sublist_insertionSort hpair (List.filter_sublist l)
    have hself : (l.filter p).filter p = l.filter p := by
      rw [List.filter_eq_self]
      intro a ha
      exact List.of_mem_filter ha
    have hsub3 :
        List.Sublist (l.filter p) ((List.insertionSort scoreGE l).filter p) := by
      have h1 := hsub2.filter p
      rwa [hself] at h1
    have hperm :
        List.Perm ((List.insertionSort scoreGE l).filter p) (l.filter p) :=
      (List.perm_insertionSort scoreGE l).filter p
    have heq := hsub3.eq_of_length hperm.length_eq.symm
    show (List.insertionSort scoreGE l).filter p = l.filter p
    exact heq.symm

/-! ### Recency score (C3) -/

/-- `logb 10` of an argument that is at least 100 is at least 2. -/
lemma two_le_logb_of_hundred_le {x : ℝ} (hx : 100 ≤ x) :
    (2 : ℝ) ≤ Real.logb 10 x := by
  rw [Real.le_logb_iff_rpow_le (by norm_num) (by linarith)]
  have h2 : (10 : ℝ) ^ (2 : ℝ) = 100 := by
    rw [show (2 : ℝ) = ((2 : ℕ) : ℝ) by norm_num, Real.rpow_natCast]
    norm_num
  linarith [h2.le.trans hx]

/-- C3, counterexample: a file exactly 100 days old scores 0, not
approximately 0.5 — the raw value `1 - logb 10 101 / 2` is negative and the
clamp floors it at 0.  Stated both for the age formula and for the full
scoring function at a concrete clock and timestamp (both in seconds). -/
theorem recency_hundred_day_counterexample :
    recencyScoreOfAge 100 = 0
    ∧ recencyScore (101 * 86400) 86400 = 0
    ∧ ¬ ((1 : ℝ) / 4 ≤ recencyScoreOfAge 100) := by
  have hlog : (2 : ℝ) ≤ Real.logb 10 (1 + 100) := by
    apply two_le_logb_of_hundred_le
    norm_num
  have hraw : 1 - Real.logb 10 (1 + 100) / 2 ≤ 0 := by
    set L := Real.logb 10 (1 + 100) with hL
    linarith
  have h0 : recencyScoreOfAge 100 = 0 := by
    rw [recencyScoreOfAge, min_eq_right (hraw.trans zero_le_one),
      max_eq_left hraw]
  refine ⟨h0, ?_, ?_⟩
  · rw [recencyScore, if_neg (by norm_num)]
    rw [show ((101 : ℝ) * 86400 - 86400) / 86400 = 100 by norm_num]
    exact h0
  · rw [h0]
    norm_num

/-- C3, amended: for a non-zero timestamp the recency score is exactly
`clamp(1 - log10(1 + ageDays) / 2, 0, 1)` with `ageDays = (now - ts)/86400`;
a same-day (age 0) file scores 1, a file 9 days old scores exactly 0.5, every
file 99 or more days old scores 0 (the clamp keeps the score from going
negative, and the score is never negative), and a 0/unknown timestamp yields
score 0. -/
theorem recencyScore_characterization :
    (∀ nowSec ts : ℝ, ts ≠ 0 →
        recencyScore nowSec ts
          = max 0 (min 1 (1 - Real.logb 10 (1 + (nowSec - ts) / 86400) / 2)))
    ∧ recencyScoreOfAge 0 = 1
    ∧ recencyScoreOfAge 9 = 1 / 2
    ∧ (∀ age : ℝ, 99 ≤ age → recencyScoreOfAge age = 0)
    ∧ (∀ age : ℝ, 0 ≤ recencyScoreOfAge age)
    ∧ (∀ nowSec : ℝ, recencyScore nowSec 0 = 0) := by
  refine ⟨?_, ?_, ?_, ?_, ?_, ?_⟩
  · intro nowSec ts hts
    rw [recencyScore, if_neg hts, recencyScoreOfAge]
  · rw [recencyScoreOfAge]
    norm_num
  · rw [recencyScoreOfAge]
    rw [show (1 : ℝ) + 9 = 10 by norm_num,
      Real.logb_self_eq_one (by norm_num)]
    norm_num
  · intro age hage
    have hlog : (2 : ℝ) ≤ Real.logb 10 (1 + age) := by
      apply two_le_logb_of_hundred_le
      linarith
    have hraw : 1 - Real.logb 10 (1 + age) / 2 ≤ 0 := by linarith
    rw [recencyScoreOfAge, min_eq_right (hraw.trans zero_le_one),
      max_eq_left hraw]
  · intro age
    exact le_max_left 0 _
  · intro nowSec
    rw [recencyScore, if_pos rfl]

/-- Witness for C3's amended theorem at concrete clock values. -/
theorem recencyScore_characterization_witness :
    recencyScore 86400 86400
        = max 0 (min 1 (1 - Real.logb 10 (1 + (86400 - 86400) / 86400) / 2))
    ∧ recencyScoreOfAge 99 = 0 :=
  ⟨recencyScore_characterization.1 86400 86400 (by norm_num),
   recencyScore_characterization.2.2.2.1 99 (by norm_num)⟩

/-! ### Keyword extraction and regex-vs-substring matching (C5) -/

/-- Every character of every run produced by `splitRuns` is a keyword
character, provided the accumulator only holds keyword characters. -/
lemma keywordChar_of_mem_splitRuns :
    ∀ (l : List Char) (acc : List Char),
      (∀ c ∈ acc, isKeywordChar c = true) →
        ∀ r ∈ splitRuns l acc, ∀ c ∈ r, isKeywordChar c = true := by
  intro l
  induction l with
  | nil =>
    intro acc hacc r hr c hc
    rw [splitRuns] at hr
    split_ifs at hr
    · exact absurd hr (List.not_mem_nil r)
    · rw [List.mem_singleton] at hr
      subst hr
      exact hacc c (List.mem_reverse.mp hc)
  | cons a as ih =>
    intro acc hacc r hr c hc
    rw [splitRuns] at hr
    split_ifs at hr with h1 h2
    · refine ih (a :: acc) ?_ r hr c hc
      intro d hd
      rcases List.mem_cons.mp hd with rfl | hd'
      · exact h1
      · exact hacc d hd'
    · exact ih [] (by simp) r hr c hc
    · rcases List.mem_cons.mp hr with rfl | hr'
      · exact hacc c (List.mem_reverse.mp hc)
      · exact ih [] (by simp) r hr' c hc

/-- Deduplication by repeated `insertUnique` introduces no new elements. -/
lemma mem_foldl_insertUnique :
    ∀ (l : List (List Char)) (acc : List (List Char)) (y : List Char),
      y ∈ l.foldl insertUnique acc → y ∈ acc ∨ y ∈ l := by
  intro l
  induction l with
  | nil =>
    intro acc y hy
    exact Or.inl hy
  | cons x xs ih =>
    intro acc y hy
    rw [List.foldl_cons] at hy
    rcases ih (insertUnique acc x) y hy with hacc | hxs
    · rw [insertUnique] at hacc
      split_ifs at hacc
      · exact Or.inl hacc
      · rcases List.mem_append.mp hacc with h | h
        · exact Or.inl h
        · rw [List.mem_singleton] at h
          exact Or.inr (h ▸ List.mem_cons_self x xs)
    · exact Or.inr (List.mem_cons_of_mem x hxs)

/-- Every keyword the extractor produces consists of keyword characters
only. -/
lemma extract_chars (q : String) (k : List Char) (hk : k ∈ extract q) :
    ∀ c ∈ k, isKeywordChar c = true := by
  rw [extract, dedupFirst] at hk
  rcases mem_foldl_insertUnique _ [] k hk with h | h
  · exact absurd h (List.not_mem_nil k)
  · exact keywordChar_of_mem_splitRuns _ [] (by simp) k
      (List.mem_of_mem_filter h)

/-- No keyword character is a regex metacharacter. -/
lemma not_mem_metachars {c : Char} (h : isKeywordChar c = true) :
    c ∉ REGEX_METACHARS := by
  intro hmem
  rw [REGEX_METACHARS] at hmem
  fin_cases hmem <;> exact absurd h (by decide)

/-- Escaping is the identity on keyword strings: no character needs a
backslash. -/
lemma escapeRegex_eq_self {k : List Char}
    (h : ∀ c ∈ k, isKeywordChar c = true) : escapeRegex k = k := by
  induction k with
  | nil => rfl
  | cons c rest ih =>
    rw [escapeRegex,
      if_neg (not_mem_metachars (h c (List.mem_cons_self c rest))),
      ih (fun d hd => h d (List.mem_cons_of_mem c hd))]
    rfl

/-- A pattern without backslashes parses to itself. -/
lemma parsePattern_of_no_backslash {k : List Char} (h : '\\' ∉ k) :
    parsePattern k = some k := by
  induction k with
  | nil => rfl
  | cons c rest ih =>
    have hc : ¬ c = '\\' := fun hcc => h (hcc ▸ List.mem_cons_self c rest)
    rw [parsePattern.eq_def]
    dsimp only
    rw [if_neg hc, ih (fun hm => h (List.mem_cons_of_mem c hm))]
    rfl

/-- For a string of keyword characters, testing its escaped regex
case-insensitively coincides with case-insensitive substring containment. -/
lemma regexTest_eq_substring {k : List Char}
    (h : ∀ c ∈ k, isKeywordChar c = true) (p : List Char) :
    regexTestCI (escapeRegex k) p = substringCI k p := by
  have hbs : '\\' ∉ k := fun hm => absurd (h '\\' hm) (by decide)
  rw [escapeRegex_eq_self h, regexTestCI, parsePattern_of_no_backslash hbs]
  rfl

/-- `List.any` only depends on the predicate's values on the members. -/
lemma any_congr_of_mem {α : Type} {f g : α → Bool} :
    ∀ (l : List α), (∀ x ∈ l, f x = g x) → l.any f = l.any g := by
  intro l
  induction l with
  | nil => intro _; rfl
  | cons x xs ih =>
    intro h
    simp only [List.any_cons]
    rw [h x (List.mem_cons_self x xs),
      ih (fun y hy => h y (List.mem_cons_of_mem x hy))]

/-- C5: for every keyword the extractor produces, testing the escaped
keyword as a case-insensitive regex against a path gives exactly
case-insensitive substring containment, and consequently the filename-match
set computed through escaped regexes equals the set of paths containing some
keyword as a case-insensitive substring. -/
theorem keyword_regex_substring_equiv (q : String) :
    (∀ k ∈ extract q, ∀ p : List Char,
        regexTestCI (escapeRegex k) p = substringCI k p)
    ∧ ∀ files : List (List Char),
        byName files (extract q) = byNameSubstring files (extract q) := by
  constructor
  · intro k hk p
    exact regexTest_eq_substring (extract_chars q k hk) p
  · intro files
    rw [byName, byNameSubstring]
    apply List.filter_congr
    intro f _
    apply any_congr_of_mem
    intro k hk
    exact regexTest_eq_substring (extract_chars q k hk) f

/-- Witness for C5 at the question "auth jwt" and the path `src/auth.ts`. -/
theorem keyword_regex_substring_equiv_witness :
    regexTestCI (escapeRegex ['a', 'u', 't', 'h'])
        ['s', 'r', 'c', '/', 'a', 'u', 't', 'h', '.', 't', 's']
      = substringCI ['a', 'u', 't', 'h']
          ['s', 'r', 'c', '/', 'a', 'u', 't', 'h', '.', 't', 's'] :=
  (keyword_regex_substring_equiv "auth jwt").1 ['a', 'u', 't', 'h'] (by decide)
    ['s', 'r', 'c', '/', 'a', 'u', 't', 'h', '.', 't', 's']

end RepoSelect
